import Mathlib

/-
Verification of the melwallet core (src/lib.rs, src/signer.rs): a shallow
embedding of the wallet state machine ('Wallet', 'add_coins', 'full_reset',
'add_pending', 'spendable_utxos') and of the transaction preparer
('prepare_tx') together with the single-key reference signer
('StdEd25519Signer::sign').

Modelling conventions:
- Rust `BTreeMap`/`HashMap` values are embedded as association lists
  (`MMap α β := List (α × β)`) whose insert replaces an existing binding in
  place and appends a fresh one.  The stated theorems are all insensitive to
  iteration order, so the difference between sorted-key iteration order
  (`BTreeMap`) and insertion order is immaterial to them.
- Machine integers (`u64`, `u128`, heights, coin values) are embedded as
  `Nat`; none of the claims depends on wrap-around behaviour.
- `&mut self` methods are embedded as state-passing functions returning
  `Option Error × Wallet` (the possibly-updated wallet).
- The external collaborators that the crate consumes as opaque functions
  (the melstructs `base_fee` weight function, the `hash_nosigs`
  signature-independent transaction hash, the melvm covenant and the raw
  ed25519 signature bytes) are threaded through as explicit function
  parameters, exactly as the spec directs ("this design consumes them as
  opaque, well-defined functions").
- The float fee ladder `1.1f64.powi(power) as u64` is embedded as the exact
  rational floor `11^power / 10^power`; on the small powers exercised by any
  concrete statement below this agrees with the IEEE-754 computation.
- A Rust panic (out-of-bounds index) and a signer refusal are both embedded
  as `Option`-valued failure (`none`).
-/

/-! ## Ledger data model (mirroring the melstructs types used by the crate) -/

/-- Raw byte strings (`bytes::Bytes`): a list of byte values. -/
abbrev Bytes := List Nat

/-- Signature-independent transaction hash (`TxHash`), opaque to this crate. -/
abbrev TxHash := Nat

/-- Covenant-hash address (`Address`), opaque to this crate. -/
abbrev Address := Nat

/-- Block height (`BlockHeight`, a `u64`). -/
abbrev BlockHeight := Nat

/-- Coin value (`CoinValue`, a `u128`). -/
abbrev CoinValue := Nat

/-- Network id (`NetID`), opaque to this crate. -/
abbrev NetID := Nat

/-- Transaction kind (`TxKind`, a byte), opaque to this crate. -/
abbrev TxKind := Nat

/-- Asset denomination: the native fee asset `Mel`, the reserved
"mint new token" denom `NewCustom`, or a custom token id. -/
inductive Denom where
  | Mel : Denom
  | NewCustom : Denom
  | Custom (id : Nat) : Denom
deriving DecidableEq, Repr

/-- Reference to a specific output of a specific transaction (`CoinID`). -/
structure CoinID where
  txhash : TxHash
  index : Nat
deriving DecidableEq, Repr

/-- The payload a coin carries (`CoinData`). -/
structure CoinData where
  covhash : Address
  denom : Denom
  value : CoinValue
  additional_data : Bytes
deriving DecidableEq, Repr

/-- A coin payload together with its confirmation height (`CoinDataHeight`). -/
structure CoinDataHeight where
  coin_data : CoinData
  height : BlockHeight
deriving DecidableEq, Repr

/-- A transaction (`melstructs::Transaction`). -/
structure Transaction where
  kind : TxKind
  inputs : List CoinID
  outputs : List CoinData
  fee : CoinValue
  covenants : List Bytes
  data : Bytes
  sigs : List Bytes
deriving DecidableEq, Repr

/-! ## Association-list maps

Embedding of `BTreeMap`/`HashMap`: a list of key-value pairs with unique
keys.  `minsert` replaces in place or appends, `mremove` drops the key,
`mget` looks the key up, `maddTo` is the `entry(k).or_default() += v`
idiom. -/

/-- Association-list embedding of the map types used by the wallet. -/
abbrev MMap (α β : Type) := List (α × β)

/-- Look up a key in an association list (map `get`). -/
def mget {α β : Type} [DecidableEq α] : MMap α β → α → Option β
  | [], _ => none
  | (a, b) :: t, k => if a = k then some b else mget t k

/-- Insert a binding, replacing an existing binding for the key in place
(map `insert`). -/
def minsert {α β : Type} [DecidableEq α] : MMap α β → α → β → MMap α β
  | [], k, v => [(k, v)]
  | (a, b) :: t, k, v => if a = k then (k, v) :: t else (a, b) :: minsert t k v

/-- Remove every binding for a key (map `remove`; under the unique-keys
invariant there is at most one). -/
def mremove {α β : Type} [DecidableEq α] : MMap α β → α → MMap α β
  | [], _ => []
  | (a, b) :: t, k => if a = k then mremove t k else (a, b) :: mremove t k

/-- Key membership test (map `contains_key`). -/
def mcontains {α β : Type} [DecidableEq α] (l : MMap α β) (k : α) : Bool :=
  (mget l k).isSome

/-- The `*map.entry(k).or_default() += v` idiom on numeric-valued maps. -/
def maddTo {α : Type} [DecidableEq α] (l : MMap α Nat) (k : α) (v : Nat) : MMap α Nat :=
  minsert l k ((mget l k).getD 0 + v)

/-- The key list of an association list. -/
def mkeys {α β : Type} (l : MMap α β) : List α := l.map (·.1)

/-! ## Wallet state (src/lib.rs lines 18-110, 214-227) -/

/-- The wallet bookkeeping struct (`Wallet`). -/
structure Wallet where
  netid : NetID
  address : Address
  height : BlockHeight
  confirmed_utxos : MMap CoinID CoinDataHeight
  pending_outgoing : MMap TxHash Transaction
deriving DecidableEq, Repr

/-- The error enum returned by the state-mutating wallet operations
(`AddCoinsError`). -/
inductive AddCoinsError where
  | badHeight : AddCoinsError
  | wrongAddress : AddCoinsError
deriving DecidableEq, Repr

/-- Lists the balances of the wallet by token (`Wallet::balances`). -/
def balances (w : Wallet) : MMap Denom CoinValue :=
  w.confirmed_utxos.foldl (fun m p => maddTo m p.2.coin_data.denom p.2.coin_data.value) []

/-- Stage the new coins of `add_coins` into the temporary map `accum`
(src/lib.rs lines 69-75): each coin is address-checked before being
inserted (with replacement, `HashMap::insert`); the first misaddressed coin
aborts the whole call with no staged state committed. -/
def stageNewCoins (addr : Address) (height : BlockHeight) :
    List (CoinID × CoinData) → MMap CoinID CoinDataHeight →
    Option (MMap CoinID CoinDataHeight)
  | [], acc => some acc
  | (cid, cd) :: rest, acc =>
    if cd.covhash = addr then
      stageNewCoins addr height rest (minsert acc cid ⟨cd, height⟩)
    else
      none

/-- Commit the staged coins to the wallet maps (src/lib.rs lines 78-82):
for each staged coin, remove its originating transaction hash from
`pending_outgoing` and insert the coin into `confirmed_utxos`. -/
def applyNew :
    MMap CoinID CoinDataHeight →
    MMap TxHash Transaction × MMap CoinID CoinDataHeight →
    MMap TxHash Transaction × MMap CoinID CoinDataHeight
  | [], st => st
  | kv :: rest, (pend, conf) =>
    applyNew rest (mremove pend kv.1.txhash, minsert conf kv.1 kv.2)

/-- Adds all the coin diffs at a particular block height
(`Wallet::add_coins`, src/lib.rs lines 57-88).  Returns the error (if any)
together with the wallet state after the call. -/
def addCoins (w : Wallet) (height : BlockHeight)
    (newCoins : List (CoinID × CoinData)) (spentCoins : List CoinID) :
    Option AddCoinsError × Wallet :=
  if height ≠ w.height + 1 then
    (some .badHeight, w)
  else
    match stageNewCoins w.address height newCoins [] with
    | none => (some .wrongAddress, w)
    | some accum =>
      let st := applyNew accum (w.pending_outgoing, w.confirmed_utxos)
      let conf := spentCoins.foldl (fun c k => mremove c k) st.2
      (none, { w with height := height, confirmed_utxos := conf, pending_outgoing := st.1 })

/-- Reset the wallet to a certain set of coins (`Wallet::full_reset`,
src/lib.rs lines 91-110).  The supplied iterator is first collected into a
map (later duplicate keys override earlier ones, as in
`BTreeMap::from_iter`), then every collected coin is address-checked. -/
def fullReset (w : Wallet) (latestHeight : BlockHeight)
    (coins : List (CoinID × CoinDataHeight)) : Option AddCoinsError × Wallet :=
  let collected := coins.foldl (fun acc kv => minsert acc kv.1 kv.2) []
  if collected.any (fun kv => decide (kv.2.coin_data.covhash ≠ w.address)) then
    (some .wrongAddress, w)
  else
    (none, { w with height := latestHeight, confirmed_utxos := collected,
                    pending_outgoing := [] })

/-- Note a pending, outgoing transaction (`Wallet::add_pending`,
src/lib.rs lines 215-217), keyed by the signature-independent hash.  The
external `hash_nosigs` function is passed in explicitly. -/
def addPending (hashNosigs : Transaction → TxHash) (w : Wallet) (tx : Transaction) : Wallet :=
  { w with pending_outgoing := minsert w.pending_outgoing (hashNosigs tx) tx }

/-- The confirmed coins not spent by any pending outgoing transaction
(`Wallet::spendable_utxos`, src/lib.rs lines 219-227). -/
def spendableUtxos (w : Wallet) : List (CoinID × CoinDataHeight) :=
  w.confirmed_utxos.filter (fun kv =>
    !(w.pending_outgoing.any (fun p => p.2.inputs.any (fun i => decide (i = kv.1)))))

/-! ## Signing capability (src/signer.rs) -/

/-- The signing capability (the `Signer` trait): an unlock covenant, a
conservative signature-size estimate, and a signing operation.  `sign`
returns `none` when the signer refuses (or, for the reference signer,
when the indexing panics). -/
structure SignerM where
  covenant : Bytes
  sigSize : Nat
  sign : Transaction → Nat → Option Transaction

/-- The signing operation of the ed25519 reference signer
(`StdEd25519Signer::sign`, src/signer.rs lines 35-40): clone the
transaction, resize `sigs` to `max for_input sigs.len` (padding with empty
byte strings), then write the signature at index `for_input`.  The raw
ed25519 signature bytes `self.0.sign(hash_nosigs(txn))` are supplied by the
opaque `sigOf`.  The index write is out of bounds — a Rust panic, embedded
as `none` — exactly when `for_input ≥ sigs.len`. -/
def stdSign (sigOf : Transaction → Bytes) (txn : Transaction) (forInput : Nat) :
    Option Transaction :=
  let resized := txn.sigs ++ List.replicate (max forInput txn.sigs.length - txn.sigs.length) []
  if forInput < resized.length then
    some { txn with sigs := resized.set forInput (sigOf { txn with sigs := resized }) }
  else
    none

/-- The ed25519 reference signer (`StdEd25519Signer`) as a `SignerM`: the
melvm covenant bytes and the raw signature function are external and passed
in; `sig_size` is the constant 64. -/
def stdEd25519Signer (cov : Bytes) (sigOf : Transaction → Bytes) : SignerM :=
  ⟨cov, 64, stdSign sigOf⟩

/-! ## Transaction preparer (src/lib.rs lines 112-212) -/

/-- The error enum of the preparer (`PrepareTxError`).  The signer's own
error detail is opaque, so `signerRefused` carries none. -/
inductive PrepareTxError where
  | insufficientFunds (d : Denom)
  | badExternalInput (c : CoinID)
  | signerRefused
deriving DecidableEq, Repr

/-- The preparation request (`PrepareTxArgs`). -/
structure PrepareTxArgs where
  kind : TxKind
  inputs : List (CoinID × CoinDataHeight)
  outputs : List CoinData
  covenants : List Bytes
  data : Bytes
  fee_ballast : Nat
deriving Repr

/-- The candidate fee of ladder step `power`: the exact-rational floor of
`1.1f64.powi(power) as u64` (src/lib.rs line 122). -/
def ladderFee (power : Nat) : Nat := 11 ^ power / 10 ^ power

/-- The per-denom total of the requested outputs plus the candidate fee in
Mel (src/lib.rs lines 124-133); the `NewCustom` mint denom is excluded. -/
def neededMap (args : PrepareTxArgs) (fee : Nat) : MMap Denom Nat :=
  maddTo
    (args.outputs.foldl
      (fun m o => if o.denom = Denom.NewCustom then m else maddTo m o.denom o.value) [])
    Denom.Mel fee

/-- The per-denom total already covered by the explicit inputs
(src/lib.rs lines 136-141). -/
def actualMap (inputs : List (CoinID × CoinDataHeight)) : MMap Denom Nat :=
  inputs.foldl (fun m p => maddTo m p.2.coin_data.denom p.2.coin_data.value) []

/-- The inner drawing loop for one denom (src/lib.rs lines 144-155): walk
the denom-filtered spendable coins, taking each while the accumulated
amount is still below the needed amount, and stopping (`break`) at the
first coin where it is not.  Returns the drawn coins and the final
accumulated amount; only this denom's entry of `inmoney_actual` is read or
written during the loop, so the amount is threaded directly. -/
def drawDenom (neededAmt : Nat) : List (CoinID × CoinDataHeight) → Nat →
    List (CoinID × CoinDataHeight) × Nat
  | [], amt => ([], amt)
  | c :: rest, amt =>
    if amt < neededAmt then
      let r := drawDenom neededAmt rest (amt + c.2.coin_data.value)
      (c :: r.1, r.2)
    else
      ([], amt)

/-- The outer drawing loop over the needed denoms (src/lib.rs lines
143-156).  Returns the coins drawn (in draw order, appended after the
explicit inputs by the caller), the updated `inmoney_actual` map, and
`touched_coin_count`.  The map entry for a denom is written back only when
at least one coin was drawn for it, matching the source, where
`entry(denom).or_default()` runs only inside a push. -/
def drawAll (w : Wallet) : MMap Denom Nat → MMap Denom Nat →
    List (CoinID × CoinDataHeight) × MMap Denom Nat × Nat
  | [], actual => ([], actual, 0)
  | (dn, nd) :: rest, actual =>
    let coins := (spendableUtxos w).filter (fun p => decide (p.2.coin_data.denom = dn))
    let d := drawDenom nd coins ((mget actual dn).getD 0)
    let actual' := if d.1.isEmpty then actual else minsert actual dn d.2
    let r := drawAll w rest actual'
    (d.1 ++ r.1, r.2.1, d.1.length + r.2.2)

/-- The change-output loop (src/lib.rs lines 163-180): for each denom of
`inmoney_actual`, a positive surplus over the needed amount becomes a
change output to the wallet's own address; a shortfall
(`checked_sub` returning `None`) fails with insufficient funds when
`check_balanced` is set and is silently tolerated otherwise. -/
def changeOutputs (addr : Address) (needed : MMap Denom Nat) (checkBalanced : Bool) :
    MMap Denom Nat → Except PrepareTxError (List CoinData)
  | [] => .ok []
  | (dn, inm) :: rest =>
    let nd := (mget needed dn).getD 0
    if nd ≤ inm then
      (changeOutputs addr needed checkBalanced rest).map (fun l =>
        if 0 < inm - nd then ⟨addr, dn, inm - nd, []⟩ :: l else l)
    else if checkBalanced then
      .error (.insufficientFunds dn)
    else
      changeOutputs addr needed checkBalanced rest

/-- Assemble the draft transaction (src/lib.rs lines 183-195): inputs are
the ids of `to_spend`, the covenant is repeated once per input, and the
signature slots are zero-filled placeholders of the signer's conservative
size. -/
def assembleTx (args : PrepareTxArgs) (toSpend : List (CoinID × CoinDataHeight))
    (outputs : List CoinData) (fee : Nat) (sg : SignerM) : Transaction :=
  { kind := args.kind
    inputs := toSpend.map (·.1)
    outputs := outputs
    fee := fee
    covenants := List.replicate toSpend.length sg.covenant
    data := args.data
    sigs := List.replicate toSpend.length (List.replicate sg.sigSize 0) }

/-- The sequential signing fold over one input index list
(`try_fold` at src/lib.rs lines 206-207). -/
def signFoldAux (sg : SignerM) : List Nat → Transaction → Option Transaction
  | [], t => some t
  | i :: rest, t =>
    match sg.sign t i with
    | none => none
    | some t1 => signFoldAux sg rest t1

/-- Sign input indices `0, 1, …, n-1` in order (src/lib.rs lines 206-207). -/
def signFold (sg : SignerM) (t : Transaction) (n : Nat) : Option Transaction :=
  signFoldAux sg (List.range n) t

/-- One iteration of the fee ladder of `prepare_tx` (the body of the
`for power in 0..` loop, src/lib.rs lines 121-209), at candidate fee
`ladderFee power`.  `baseFee` is the external melstructs
`Transaction::base_fee` weight function (applied to the fee multiplier,
the fee ballast and the assembled transaction).  The result is `ok none`
when the iteration falls through to the next ladder step.  Note the
source's fee-asset re-check (line 159) errors when the accumulated
fee-asset value is **at least** the candidate fee, and its
`entry(Mel).or_default()` inserts a zero Mel entry into `inmoney_actual`
when absent. -/
def prepareAttempt (w : Wallet) (args : PrepareTxArgs)
    (baseFee : Nat → Nat → Transaction → Nat) (sg : SignerM)
    (feeMultiplier : Nat) (checkBalanced : Bool) (power : Nat) :
    Except PrepareTxError (Option Transaction) :=
  let fee := ladderFee power
  let needed := neededMap args fee
  let dres := drawAll w needed (actualMap args.inputs)
  let toSpend := args.inputs ++ dres.1
  let melVal := (mget dres.2.1 Denom.Mel).getD 0
  let actual2 := if mcontains dres.2.1 Denom.Mel then dres.2.1
                 else minsert dres.2.1 Denom.Mel 0
  if fee ≤ melVal then
    .error (.insufficientFunds .Mel)
  else
    match changeOutputs w.address needed checkBalanced actual2 with
    | .error e => .error e
    | .ok change =>
      let assembled := assembleTx args toSpend (args.outputs ++ change) fee sg
      if baseFee feeMultiplier args.fee_ballast assembled ≤ fee then
        match signFold sg { assembled with sigs := [] }
            (args.inputs.length + dres.2.2) with
        | some signed => .ok (some signed)
        | none => .error .signerRefused
      else
        .ok none

/-- The fee ladder of `prepare_tx`, from ladder step `power`, with `fuel`
remaining iterations.  Exhausting the iteration bound returns
`InsufficientFunds(Mel)`, matching the `Err` after the loop
(src/lib.rs line 211). -/
def prepareTxAux (w : Wallet) (args : PrepareTxArgs)
    (baseFee : Nat → Nat → Transaction → Nat) (sg : SignerM)
    (feeMultiplier : Nat) (checkBalanced : Bool) :
    Nat → Nat → Except PrepareTxError Transaction
  | _, 0 => .error (.insufficientFunds .Mel)
  | power, fuel + 1 =>
    match prepareAttempt w args baseFee sg feeMultiplier checkBalanced power with
    | .error e => .error e
    | .ok (some tx) => .ok tx
    | .ok none => prepareTxAux w args baseFee sg feeMultiplier checkBalanced (power + 1) fuel

/-- Prepare a transaction (`Wallet::prepare_tx`, src/lib.rs lines 113-212),
with an explicit iteration bound `fuel` on the fee ladder. -/
def prepareTx (w : Wallet) (args : PrepareTxArgs)
    (baseFee : Nat → Nat → Transaction → Nat) (sg : SignerM)
    (feeMultiplier : Nat) (checkBalanced : Bool) (fuel : Nat) :
    Except PrepareTxError Transaction :=
  prepareTxAux w args baseFee sg feeMultiplier checkBalanced 0 fuel

/-! ## Association-list lemmas -/

theorem mget_minsert_self {α β : Type} [DecidableEq α] (l : MMap α β) (k : α) (v : β) :
    mget (minsert l k v) k = some v := by
  induction l with
  | nil => simp [minsert, mget]
  | cons hd t ih =>
    obtain ⟨a, b⟩ := hd
    by_cases h : a = k
    · simp [minsert, h, mget]
    · simp [minsert, h, mget, ih]

theorem mget_minsert_ne {α β : Type} [DecidableEq α] (l : MMap α β) (k k' : α) (v : β)
    (h : k' ≠ k) : mget (minsert l k v) k' = mget l k' := by
  induction l with
  | nil =>
    simp only [minsert, mget]
    exact if_neg (fun (hh : k = k') => h hh.symm)
  | cons hd t ih =>
    obtain ⟨a, b⟩ := hd
    by_cases ha : a = k
    · subst ha
      simp only [minsert, if_pos rfl, mget]
      rw [if_neg (fun (hh : a = k') => h hh.symm), if_neg (fun (hh : a = k') => h hh.symm)]
    · simp only [minsert, if_neg ha, mget]
      by_cases ha' : a = k'
      · simp [ha']
      · simp [ha', ih]

theorem mem_minsert_self {α β : Type} [DecidableEq α] (l : MMap α β) (k : α) (v : β) :
    (k, v) ∈ minsert l k v := by
  induction l with
  | nil => simp [minsert]
  | cons hd t ih =>
    obtain ⟨a, b⟩ := hd
    by_cases h : a = k
    · simp [minsert, h]
    · simp only [minsert, if_neg h]
      exact List.mem_cons_of_mem _ ih

theorem mem_mkeys_minsert {α β : Type} [DecidableEq α] (l : MMap α β) (k a : α) (v : β)
    (h : a ∈ mkeys (minsert l k v)) : a = k ∨ a ∈ mkeys l := by
  induction l with
  | nil => simpa [minsert, mkeys] using h
  | cons hd t ih =>
    obtain ⟨x, y⟩ := hd
    by_cases hx : x = k
    · subst hx
      simpa [minsert, mkeys] using h
    · simp only [minsert, if_neg hx, mkeys, List.map_cons, List.mem_cons] at h
      rcases h with h | h
      · exact Or.inr (by simp [mkeys, h])
      · rcases ih h with h' | h'
        · exact Or.inl h'
        · exact Or.inr (by simp [mkeys] at h' ⊢; exact Or.inr h')

theorem mem_mkeys_minsert_of_mem {α β : Type} [DecidableEq α] (l : MMap α β) (k k' : α)
    (v : β) (h : k' ∈ mkeys l) : k' ∈ mkeys (minsert l k v) := by
  induction l with
  | nil => simp [mkeys] at h
  | cons hd t ih =>
    obtain ⟨x, y⟩ := hd
    simp only [mkeys, List.map_cons, List.mem_cons] at h
    simp only [minsert]
    by_cases hx : x = k
    · rw [if_pos hx]
      simp only [mkeys, List.map_cons, List.mem_cons]
      rcases h with h | h
      · exact Or.inl (h.trans hx)
      · exact Or.inr h
    · rw [if_neg hx]
      simp only [mkeys, List.map_cons, List.mem_cons]
      rcases h with h | h
      · exact Or.inl h
      · exact Or.inr (ih h)

theorem mkeys_mem_minsert_self {α β : Type} [DecidableEq α] (l : MMap α β) (k : α) (v : β) :
    k ∈ mkeys (minsert l k v) := by
  have := mem_minsert_self l k v
  simp only [mkeys, List.mem_map]
  exact ⟨(k, v), this, rfl⟩

theorem mget_mremove_self {α β : Type} [DecidableEq α] (l : MMap α β) (k : α) :
    mget (mremove l k) k = none := by
  induction l with
  | nil => simp [mremove, mget]
  | cons hd t ih =>
    obtain ⟨a, b⟩ := hd
    by_cases h : a = k
    · simp [mremove, h, ih]
    · simp [mremove, h, mget, ih]

theorem mget_mremove_none {α β : Type} [DecidableEq α] (l : MMap α β) (k a : α)
    (h : mget l a = none) : mget (mremove l k) a = none := by
  induction l with
  | nil => simp [mremove, mget]
  | cons hd t ih =>
    obtain ⟨x, y⟩ := hd
    by_cases hx : x = k
    · simp only [mremove, if_pos hx]
      simp only [mget] at h
      by_cases hxa : x = a
      · simp [hxa] at h
      · exact ih (by simpa [hxa] using h)
    · simp only [mremove, if_neg hx, mget]
      simp only [mget] at h
      by_cases hxa : x = a
      · simp [hxa] at h
      · simpa [hxa] using ih (by simpa [hxa] using h)

theorem minsert_fresh {α β : Type} [DecidableEq α] (l : MMap α β) (k : α) (v : β)
    (h : k ∉ mkeys l) : minsert l k v = l ++ [(k, v)] := by
  induction l with
  | nil => simp [minsert]
  | cons hd t ih =>
    obtain ⟨a, b⟩ := hd
    simp only [mkeys, List.map_cons, List.mem_cons, not_or] at h
    simp only [minsert, if_neg (fun (hh : a = k) => h.1 hh.symm), List.cons_append,
      List.cons.injEq, true_and]
    exact ih (by simpa [mkeys] using h.2)

theorem foldl_minsert_append {α β : Type} [DecidableEq α] :
    ∀ (l acc : MMap α β), (mkeys (acc ++ l)).Nodup →
      l.foldl (fun a kv => minsert a kv.1 kv.2) acc = acc ++ l := by
  intro l
  induction l with
  | nil => intro acc _; simp
  | cons hd tl ih =>
    intro acc hnd
    have hfresh : hd.1 ∉ mkeys acc := by
      simp only [mkeys, List.map_append, List.map_cons] at hnd
      rcases List.nodup_append.mp hnd with ⟨-, -, hdisj⟩
      intro hmem
      exact hdisj hmem (List.mem_cons_self _ _)
    have step : minsert acc hd.1 hd.2 = acc ++ [hd] := by
      have := minsert_fresh acc hd.1 hd.2 hfresh
      simpa using this
    simp only [List.foldl_cons, step]
    have harr : (acc ++ [hd]) ++ tl = acc ++ hd :: tl := by simp
    have hnd' : (mkeys ((acc ++ [hd]) ++ tl)).Nodup := by
      simpa [mkeys, harr] using hnd
    rw [ih (acc ++ [hd]) hnd']
    simp

theorem foldl_mremove_none {α β : Type} [DecidableEq α] :
    ∀ (sc : List α) (conf : MMap α β) (k : α), mget conf k = none →
      mget (sc.foldl (fun c k' => mremove c k') conf) k = none := by
  intro sc
  induction sc with
  | nil => intro conf k h; simpa using h
  | cons a rest ih =>
    intro conf k h
    simp only [List.foldl_cons]
    exact ih _ _ (mget_mremove_none _ _ _ h)

theorem foldl_mremove_mem {α β : Type} [DecidableEq α] :
    ∀ (sc : List α) (conf : MMap α β) (k : α), k ∈ sc →
      mget (sc.foldl (fun c k' => mremove c k') conf) k = none := by
  intro sc
  induction sc with
  | nil => intro conf k h; simp at h
  | cons a rest ih =>
    intro conf k h
    simp only [List.foldl_cons]
    rcases List.mem_cons.mp h with h | h
    · subst h
      exact foldl_mremove_none rest _ k (mget_mremove_self _ _)
    · exact ih _ _ h

theorem stageNewCoins_none (addr : Address) (ht : BlockHeight) :
    ∀ (l : List (CoinID × CoinData)) (acc : MMap CoinID CoinDataHeight),
      (∃ p ∈ l, p.2.covhash ≠ addr) → stageNewCoins addr ht l acc = none := by
  intro l
  induction l with
  | nil =>
    rintro acc ⟨p, hp, _⟩
    exact absurd hp (List.not_mem_nil p)
  | cons hd tl ih =>
    rintro acc ⟨p, hp, hne⟩
    obtain ⟨cid, cd⟩ := hd
    by_cases hc : cd.covhash = addr
    · simp only [stageNewCoins, if_pos hc]
      rcases List.mem_cons.mp hp with h1 | h1
      · exfalso
        apply hne
        rw [h1]
        exact hc
      · exact ih _ ⟨p, h1, hne⟩
    · simp [stageNewCoins, hc]

theorem stageNewCoins_keys_sub (addr : Address) (ht : BlockHeight) :
    ∀ (l : List (CoinID × CoinData)) (acc accum : MMap CoinID CoinDataHeight),
      stageNewCoins addr ht l acc = some accum →
      ∀ k, k ∈ mkeys acc → k ∈ mkeys accum := by
  intro l
  induction l with
  | nil =>
    intro acc accum h k hk
    simp only [stageNewCoins, Option.some.injEq] at h
    rwa [← h]
  | cons hd tl ih =>
    intro acc accum h k hk
    obtain ⟨cid, cd⟩ := hd
    by_cases hc : cd.covhash = addr
    · simp only [stageNewCoins, if_pos hc] at h
      exact ih _ _ h k (mem_mkeys_minsert_of_mem _ _ _ _ hk)
    · simp [stageNewCoins, hc] at h

theorem stageNewCoins_mem (addr : Address) (ht : BlockHeight) :
    ∀ (l : List (CoinID × CoinData)) (acc accum : MMap CoinID CoinDataHeight)
      (cid : CoinID) (cd : CoinData),
      stageNewCoins addr ht l acc = some accum → (cid, cd) ∈ l →
      cid ∈ mkeys accum := by
  intro l
  induction l with
  | nil =>
    intro acc accum cid cd _ hmem
    exact absurd hmem (List.not_mem_nil _)
  | cons hd tl ih =>
    intro acc accum cid cd h hmem
    obtain ⟨cid0, cd0⟩ := hd
    by_cases hc : cd0.covhash = addr
    · simp only [stageNewCoins, if_pos hc] at h
      rcases List.mem_cons.mp hmem with h1 | h1
      · have hcid : cid0 = cid := congrArg Prod.fst h1.symm
        subst hcid
        exact stageNewCoins_keys_sub addr ht tl _ _ h cid0
          (mkeys_mem_minsert_self _ _ _)
      · exact ih _ _ cid cd h h1
    · simp [stageNewCoins, hc] at h

theorem applyNew_pending_none :
    ∀ (accum : MMap CoinID CoinDataHeight) (pend : MMap TxHash Transaction)
      (conf : MMap CoinID CoinDataHeight) (k : TxHash),
      mget pend k = none → mget (applyNew accum (pend, conf)).1 k = none := by
  intro accum
  induction accum with
  | nil => intro pend conf k h; simpa [applyNew] using h
  | cons kv rest ih =>
    intro pend conf k h
    simp only [applyNew]
    exact ih _ _ k (mget_mremove_none _ _ _ h)

theorem applyNew_pending_removed :
    ∀ (accum : MMap CoinID CoinDataHeight) (pend : MMap TxHash Transaction)
      (conf : MMap CoinID CoinDataHeight) (cid : CoinID),
      cid ∈ mkeys accum → mget (applyNew accum (pend, conf)).1 cid.txhash = none := by
  intro accum
  induction accum with
  | nil => intro pend conf cid h; simp [mkeys] at h
  | cons kv rest ih =>
    intro pend conf cid h
    simp only [mkeys, List.map_cons, List.mem_cons] at h
    simp only [applyNew]
    rcases h with h | h
    · rw [h]
      exact applyNew_pending_none rest _ _ _ (mget_mremove_self _ _)
    · exact ih _ _ cid h

theorem addCoins_ok (w : Wallet) (h : BlockHeight) (nc : List (CoinID × CoinData))
    (sc : List CoinID) (w' : Wallet) (hs : addCoins w h nc sc = (none, w')) :
    ∃ accum, stageNewCoins w.address h nc [] = some accum ∧
      h = w.height + 1 ∧
      w' = Wallet.mk w.netid w.address h
        (sc.foldl (fun c k => mremove c k)
          (applyNew accum (w.pending_outgoing, w.confirmed_utxos)).2)
        (applyNew accum (w.pending_outgoing, w.confirmed_utxos)).1 := by
  unfold addCoins at hs
  by_cases hh : h = w.height + 1
  · rw [if_neg (by simpa using hh)] at hs
    cases hst : stageNewCoins w.address h nc [] with
    | none =>
      rw [hst] at hs
      simp at hs
    | some accum =>
      rw [hst] at hs
      simp only [Prod.mk.injEq] at hs
      exact ⟨accum, rfl, hh, hs.2.symm⟩
  · rw [if_pos (by simpa using hh)] at hs
    simp at hs

/-! ## Concrete wallets and transactions used by witnesses and
counterexamples -/

/-- A small empty wallet at height 5 (netid 0, address 1). -/
def w0 : Wallet := ⟨0, 1, 5, [], []⟩

/-- A wallet at height 1 with no coins. -/
def w1 : Wallet := ⟨0, 1, 1, [], []⟩

/-- A sample confirmed coin id. -/
def cidA : CoinID := ⟨3, 0⟩

/-- A sample coin payload at the wallet address 1, worth 7 Mel. -/
def cdhA : CoinDataHeight := ⟨⟨1, Denom.Mel, 7, []⟩, 4⟩

/-- A wallet at height 5 holding the single confirmed coin `cidA`. -/
def w2 : Wallet := ⟨0, 1, 5, [(cidA, cdhA)], []⟩

/-- A transaction spending `cidA` (its other fields immaterial). -/
def txA : Transaction := ⟨0, [cidA], [], 1, [], [], []⟩

/-! ## C5 -/

/-- C5: for every wallet state and call `add_coins(height, new_coins,
spent_coins)`, a non-contiguous height fails with `BadHeight`; a contiguous
height with any misaddressed new coin fails with `WrongAddress`; and in
every failure case the wallet (its `confirmed_utxos`, `pending_outgoing`
and `height` fields together) is exactly what it was before the call. -/
theorem c5_add_coins_errors (w : Wallet) (h : BlockHeight)
    (nc : List (CoinID × CoinData)) (sc : List CoinID) :
    (h ≠ w.height + 1 → addCoins w h nc sc = (some .badHeight, w)) ∧
    (h = w.height + 1 → (∃ p ∈ nc, p.2.covhash ≠ w.address) →
      addCoins w h nc sc = (some .wrongAddress, w)) ∧
    (∀ e, (addCoins w h nc sc).1 = some e → (addCoins w h nc sc).2 = w) := by
  refine ⟨?_, ?_, ?_⟩
  · intro hne
    simp [addCoins, hne]
  · intro hh hbad
    rw [addCoins, if_neg (by simpa using hh),
      stageNewCoins_none w.address h nc [] hbad]
  · intro e he
    unfold addCoins at he ⊢
    by_cases hh : h = w.height + 1
    · rw [if_neg (by simpa using hh)] at he ⊢
      cases hst : stageNewCoins w.address h nc [] with
      | none => rfl
      | some accum =>
        rw [hst] at he
        simp at he
    · rw [if_pos (by simpa using hh)]

/-- Witness for C5, discharging all three hypotheses at concrete inputs:
a same-height call fails with `BadHeight` leaving `w0` unchanged, and a
contiguous call with a coin addressed to 2 (not the wallet address 1)
fails with `WrongAddress` leaving `w0` unchanged. -/
theorem c5_add_coins_errors_witness :
    addCoins w0 5 [] [] = (some .badHeight, w0) ∧
    addCoins w0 6 [(cidA, ⟨2, Denom.Mel, 5, []⟩)] [] = (some .wrongAddress, w0) ∧
    (addCoins w0 5 [] []).2 = w0 := by
  refine ⟨(c5_add_coins_errors w0 5 [] []).1 (by decide),
    (c5_add_coins_errors w0 6 [(cidA, ⟨2, Denom.Mel, 5, []⟩)] []).2.1 (by decide)
      ⟨(cidA, ⟨2, Denom.Mel, 5, []⟩), by decide, by decide⟩,
    (c5_add_coins_errors w0 5 [] []).2.2 .badHeight (by decide)⟩

/-! ## C6 -/

/-- C6: `full_reset(latest_height, coins)` with any misaddressed coin in
the supplied coin set fails with `WrongAddress` leaving the wallet
unchanged; when every supplied coin carries the wallet address it succeeds
with `pending_outgoing` emptied, `confirmed_utxos` exactly the supplied
set, and `height` set to `latest_height`.  The supplied coins are a set:
their `CoinID`s are pairwise distinct. -/
theorem c6_full_reset (w : Wallet) (lh : BlockHeight)
    (coins : List (CoinID × CoinDataHeight)) (hnd : (mkeys coins).Nodup) :
    ((∃ p ∈ coins, p.2.coin_data.covhash ≠ w.address) →
      fullReset w lh coins = (some .wrongAddress, w)) ∧
    ((∀ p ∈ coins, p.2.coin_data.covhash = w.address) →
      fullReset w lh coins = (none, Wallet.mk w.netid w.address lh coins [])) := by
  have hcol : coins.foldl (fun acc kv => minsert acc kv.1 kv.2) [] = coins :=
    foldl_minsert_append coins [] (by simpa using hnd)
  constructor
  · rintro ⟨p, hp, hbad⟩
    rw [fullReset]
    simp only [hcol]
    rw [if_pos]
    exact List.any_eq_true.mpr ⟨p, hp, by simpa using hbad⟩
  · intro hgood
    rw [fullReset]
    simp only [hcol]
    rw [if_neg]
    simp only [List.any_eq_true, decide_eq_true_eq, not_exists]
    intro p
    simp only [not_and, not_not]
    exact hgood p

/-- Witness for C6 at concrete inputs: resetting `w2` with a misaddressed
coin fails and leaves it unchanged; resetting it with a correctly
addressed coin set succeeds, clears the pending set and installs exactly
the supplied coins at the supplied height. -/
theorem c6_full_reset_witness :
    fullReset w2 9 [(⟨8, 1⟩, ⟨⟨2, Denom.Mel, 3, []⟩, 9⟩)] = (some .wrongAddress, w2) ∧
    fullReset w2 9 [(⟨8, 1⟩, ⟨⟨1, Denom.Mel, 3, []⟩, 9⟩)] =
      (none, Wallet.mk 0 1 9 [(⟨8, 1⟩, ⟨⟨1, Denom.Mel, 3, []⟩, 9⟩)] []) := by
  refine ⟨(c6_full_reset w2 9 _ (by decide)).1
      ⟨(⟨8, 1⟩, ⟨⟨2, Denom.Mel, 3, []⟩, 9⟩), by decide, by decide⟩,
    (c6_full_reset w2 9 _ (by decide)).2 (by decide)⟩

/-! ## C7 -/

/-- C7 counterexample: the claim "the wallet's height never decreases
across successful state-mutating operations" fails at a concrete input:
`full_reset(0, ∅)` on the wallet `w1` at height 1 succeeds and lowers the
height to 0 (the source sets `self.height = latest_height` with no
comparison, src/lib.rs line 106). -/
theorem c7_counterexample :
    (fullReset w1 0 []).1 = none ∧ (fullReset w1 0 []).2.height < w1.height := by
  exact ⟨rfl, by decide⟩

/-- C7 amended: the height never decreases under `add_coins` (a successful
call sets it to exactly `height + 1`) and `add_pending` (which leaves it
unchanged); a successful `full_reset` sets the height to exactly the
supplied `latest_height`, which may be lower than the previous height. -/
theorem c7_amended_height (w : Wallet) (h : BlockHeight)
    (nc : List (CoinID × CoinData)) (sc : List CoinID)
    (hashNosigs : Transaction → TxHash) (tx : Transaction)
    (lh : BlockHeight) (coins : List (CoinID × CoinDataHeight)) :
    (∀ w', addCoins w h nc sc = (none, w') →
      w'.height = w.height + 1 ∧ w.height ≤ w'.height) ∧
    (addPending hashNosigs w tx).height = w.height ∧
    (∀ w', fullReset w lh coins = (none, w') → w'.height = lh) := by
  refine ⟨?_, rfl, ?_⟩
  · intro w' hs
    obtain ⟨accum, -, hh, hw⟩ := addCoins_ok w h nc sc w' hs
    subst hw
    subst hh
    exact ⟨rfl, Nat.le_succ _⟩
  · intro w' hs
    unfold fullReset at hs
    by_cases hbad : (coins.foldl (fun acc kv => minsert acc kv.1 kv.2) []).any
        (fun kv => decide (kv.2.coin_data.covhash ≠ w.address))
    · rw [if_pos hbad] at hs
      simp at hs
    · rw [if_neg hbad] at hs
      simp only [Prod.mk.injEq] at hs
      rw [← hs.2]

/-- Witness for C7's amended theorem at concrete inputs: a successful
`add_coins` bumps `w0`'s height from 5 to 6, `add_pending` leaves it at 5,
and a successful `full_reset` sets it to the supplied height 9. -/
theorem c7_amended_height_witness :
    ((addCoins w0 6 [] []).2.height = w0.height + 1 ∧
      w0.height ≤ (addCoins w0 6 [] []).2.height) ∧
    (addPending (fun _ => 0) w0 txA).height = w0.height ∧
    (fullReset w0 9 []).2.height = 9 := by
  refine ⟨(c7_amended_height w0 6 [] [] (fun _ => 0) txA 9 []).1 (addCoins w0 6 [] []).2 ?_,
    (c7_amended_height w0 6 [] [] (fun _ => 0) txA 9 []).2.1,
    (c7_amended_height w0 6 [] [] (fun _ => 0) txA 9 []).2.2 (fullReset w0 9 []).2 ?_⟩
  · rfl
  · rfl

/-! ## C8 -/

/-- C8: after `add_pending(tx)`, every `CoinID` among `tx.inputs` is
absent from the spendable-coin iterator, while `confirmed_utxos` is
untouched (so any of those ids confirmed before the call are still
confirmed after it). -/
theorem c8_add_pending_excludes (hashNosigs : Transaction → TxHash) (w : Wallet)
    (tx : Transaction) (cid : CoinID) (hin : cid ∈ tx.inputs) :
    cid ∉ (spendableUtxos (addPending hashNosigs w tx)).map (·.1) ∧
    (mcontains w.confirmed_utxos cid →
      mcontains (addPending hashNosigs w tx).confirmed_utxos cid) := by
  constructor
  · intro hmem
    simp only [List.mem_map] at hmem
    obtain ⟨kv, hkv, hfst⟩ := hmem
    simp only [spendableUtxos, List.mem_filter] at hkv
    have hpend : (hashNosigs tx, tx) ∈ (addPending hashNosigs w tx).pending_outgoing :=
      mem_minsert_self _ _ _
    have hall := hkv.2
    simp only [Bool.not_eq_true', Bool.not_eq_true, List.any_eq_false,
      decide_eq_true_eq] at hall
    exact hall (hashNosigs tx, tx) hpend cid hin hfst.symm
  · intro hc
    exact hc

/-- Witness for C8 at a concrete input: after marking `txA` (which spends
the confirmed coin `cidA` of wallet `w2`) pending, `cidA` is no longer
produced by the spendable iterator yet is still in `confirmed_utxos`. -/
theorem c8_add_pending_excludes_witness :
    cidA ∉ (spendableUtxos (addPending (fun _ => 0) w2 txA)).map (·.1) ∧
    (mcontains w2.confirmed_utxos cidA →
      mcontains (addPending (fun _ => 0) w2 txA).confirmed_utxos cidA) :=
  c8_add_pending_excludes (fun _ => 0) w2 txA cidA (by decide)

/-! ## C9 -/

/-- C9: when a successful `add_coins` call supplies a new coin whose
`CoinID`'s originating transaction hash is the key of an entry of
`pending_outgoing`, that pending entry is gone after the call (the commit
loop removes the hash of every staged coin, src/lib.rs lines 78-82). -/
theorem c9_confirmation_clears_pending (w : Wallet) (h : BlockHeight)
    (nc : List (CoinID × CoinData)) (sc : List CoinID) (w' : Wallet)
    (cid : CoinID) (cd : CoinData) (ptx : Transaction)
    (hs : addCoins w h nc sc = (none, w'))
    (hmem : (cid, cd) ∈ nc)
    (_hpend : (cid.txhash, ptx) ∈ w.pending_outgoing) :
    mget w'.pending_outgoing cid.txhash = none := by
  obtain ⟨accum, hstage, -, hw⟩ := addCoins_ok w h nc sc w' hs
  subst hw
  exact applyNew_pending_removed accum _ _ cid
    (stageNewCoins_mem w.address h nc [] accum cid cd hstage hmem)

/-- Witness for C9 at a concrete input: wallet `w3` has a pending entry
keyed by hash 3; confirming a coin of `cidA = (3, 0)` (originating hash 3)
via `add_coins` removes that entry. -/
theorem c9_confirmation_clears_pending_witness :
    mget (addCoins (Wallet.mk 0 1 5 [] [(3, txA)]) 6
        [(cidA, ⟨1, Denom.Mel, 7, []⟩)] []).2.pending_outgoing cidA.txhash = none :=
  c9_confirmation_clears_pending (Wallet.mk 0 1 5 [] [(3, txA)]) 6
    [(cidA, ⟨1, Denom.Mel, 7, []⟩)] [] _ cidA ⟨1, Denom.Mel, 7, []⟩ txA rfl
    (by decide) (by decide)

/-! ## C10 -/

/-- C10: in a successful `add_coins` call, a `CoinID` appearing both among
the new coins and among the spent coins is absent from `confirmed_utxos`
afterwards: the spent-coin removal loop runs after the new-coin insertion
loop (src/lib.rs lines 78-85). -/
theorem c10_spent_after_new (w : Wallet) (h : BlockHeight)
    (nc : List (CoinID × CoinData)) (sc : List CoinID) (w' : Wallet) (cid : CoinID)
    (hs : addCoins w h nc sc = (none, w'))
    (_hnew : cid ∈ nc.map (·.1)) (hspent : cid ∈ sc) :
    mget w'.confirmed_utxos cid = none := by
  obtain ⟨accum, -, -, hw⟩ := addCoins_ok w h nc sc w' hs
  subst hw
  exact foldl_mremove_mem sc _ cid hspent

/-- Witness for C10 at a concrete input: a coin created and spent within
one `add_coins` delta (id `cidA` both inserted and listed spent) does not
persist in `confirmed_utxos`. -/
theorem c10_spent_after_new_witness :
    mget (addCoins w0 6 [(cidA, ⟨1, Denom.Mel, 7, []⟩)] [cidA]).2.confirmed_utxos
      cidA = none :=
  c10_spent_after_new w0 6 [(cidA, ⟨1, Denom.Mel, 7, []⟩)] [cidA] _ cidA rfl
    (by decide) (by decide)

/-! ## C1 -/

/-- The spec's own concrete scenario: a wallet at height 10 holding one
fee-asset coin worth 1000 units. -/
def scW : Wallet := ⟨0, 1, 10, [(⟨100, 0⟩, ⟨⟨1, Denom.Mel, 1000, []⟩, 9⟩)], []⟩

/-- A request paying one output of 100 fee-asset units to a third-party
address. -/
def scArgs : PrepareTxArgs := ⟨0, [], [⟨2, Denom.Mel, 100, []⟩], [], [], 0⟩

/-- C1: the fee-asset re-check of the fee ladder is inverted in the code.
The claim (and the spec's stated intent) is that an attempt aborts with
insufficient fee-asset funds exactly when the accumulated fee-asset value
is strictly below the candidate fee.  The source (src/lib.rs lines
159-161) instead aborts when that value is **at least** the candidate fee,
contradicting its own comment ("you always need MEL to pay the transaction
fee"): on the spec's own success scenario — 1000 Mel accumulated against a
candidate fee of 1 — the ladder-step attempt, and hence `prepare_tx`
itself, returns `InsufficientFunds(Mel)`. -/
theorem c1_inverted_fee_check :
    (mget (drawAll scW (neededMap scArgs (ladderFee 0)) (actualMap scArgs.inputs)).2.1
        Denom.Mel).getD 0 = 1000 ∧
    ladderFee 0 = 1 ∧
    prepareAttempt scW scArgs (fun _ _ _ => 1) (stdEd25519Signer [] (fun _ => []))
      1 false 0 = .error (.insufficientFunds .Mel) ∧
    prepareTx scW scArgs (fun _ _ _ => 1) (stdEd25519Signer [] (fun _ => []))
      1 false 9 = .error (.insufficientFunds .Mel) :=
  ⟨by decide, rfl, rfl, rfl⟩

/-! ## C2 -/

/-- C2: the reference signer does not always succeed.  `StdEd25519Signer::sign`
resizes the signature vector to `max(for_input, sigs.len())` — not
`for_input + 1` — and then indexes slot `for_input`, which is out of bounds
(a panic, embedded as `none`) whenever `for_input ≥ sigs.len()`.  In
particular the very first invocation `sign(txn, 0)` of the sequential
signing fold of `prepare_tx` (which clears the placeholder signatures
first) aborts on the transaction `txA` with one input. -/
theorem c2_sign_out_of_bounds :
    0 < txA.inputs.length ∧
    stdSign (fun _ => List.replicate 64 1) txA 0 = none ∧
    signFold (stdEd25519Signer [] (fun _ => List.replicate 64 1)) txA 1 = none :=
  ⟨by decide, rfl, rfl⟩

/-! ## Lemmas about the coin-drawing loops of the preparer -/

theorem drawDenom_sublist (nd : Nat) :
    ∀ (coins : List (CoinID × CoinDataHeight)) (amt : Nat),
      (drawDenom nd coins amt).1.Sublist coins := by
  intro coins
  induction coins with
  | nil => intro amt; simp [drawDenom]
  | cons c rest ih =>
    intro amt
    simp only [drawDenom]
    by_cases hlt : amt < nd
    · rw [if_pos hlt]
      exact List.Sublist.cons₂ c (ih (amt + c.2.coin_data.value))
    · rw [if_neg hlt]
      exact List.nil_sublist _

theorem drawAll_mem (w : Wallet) :
    ∀ (needed actual : MMap Denom Nat) (c : CoinID × CoinDataHeight),
      c ∈ (drawAll w needed actual).1 →
      ∃ dn, dn ∈ mkeys needed ∧
        c ∈ (spendableUtxos w).filter (fun p => decide (p.2.coin_data.denom = dn)) := by
  intro needed
  induction needed with
  | nil =>
    intro actual c hc
    simp [drawAll] at hc
  | cons hd rest ih =>
    intro actual c hc
    obtain ⟨dn, nd⟩ := hd
    simp only [drawAll, List.mem_append] at hc
    rcases hc with hc | hc
    · exact ⟨dn, by simp [mkeys],
        (drawDenom_sublist nd _ _).mem hc⟩
    · obtain ⟨dn', hdn', hc'⟩ := ih _ c hc
      exact ⟨dn', by simp [mkeys]; exact Or.inr (by simpa [mkeys] using hdn'), hc'⟩

theorem drawAll_touched (w : Wallet) :
    ∀ (needed actual : MMap Denom Nat),
      (drawAll w needed actual).2.2 = (drawAll w needed actual).1.length := by
  intro needed
  induction needed with
  | nil => intro actual; simp [drawAll]
  | cons hd rest ih =>
    intro actual
    obtain ⟨dn, nd⟩ := hd
    simp only [drawAll, List.length_append]
    rw [ih]

theorem nodup_keys_eq {α β : Type} :
    ∀ (l : List (α × β)), (l.map (·.1)).Nodup →
      ∀ p ∈ l, ∀ q ∈ l, p.1 = q.1 → p = q := by
  intro l
  induction l with
  | nil => intro _ p hp; exact absurd hp (List.not_mem_nil p)
  | cons hd t ih =>
    intro hnd p hp q hq hk
    simp only [List.map_cons, List.nodup_cons] at hnd
    rcases List.mem_cons.mp hp with hp | hp <;> rcases List.mem_cons.mp hq with hq | hq
    · rw [hp, hq]
    · exfalso
      apply hnd.1
      rw [← hp, hk]
      exact List.mem_map_of_mem (·.1) hq
    · exfalso
      apply hnd.1
      rw [← hq, ← hk]
      exact List.mem_map_of_mem (·.1) hp
    · exact ih hnd.2 p hp q hq hk

theorem spendableUtxos_sublist (w : Wallet) :
    (spendableUtxos w).Sublist w.confirmed_utxos :=
  List.filter_sublist _

theorem keys_nodup_of_sublist {α β : Type} {l l' : List (α × β)} (h : l.Sublist l')
    (hn : (l'.map (·.1)).Nodup) : (l.map (·.1)).Nodup :=
  (h.map (·.1)).nodup hn

theorem spendableUtxos_keys_nodup (w : Wallet)
    (hw : (mkeys w.confirmed_utxos).Nodup) :
    ((spendableUtxos w).map (·.1)).Nodup :=
  keys_nodup_of_sublist (spendableUtxos_sublist w) hw

theorem spendableUtxos_not_pending (w : Wallet) (c : CoinID × CoinDataHeight)
    (hc : c ∈ spendableUtxos w) :
    ∀ p ∈ w.pending_outgoing, c.1 ∉ p.2.inputs := by
  intro p hp hmem
  have h := (List.mem_filter.mp hc).2
  simp only [Bool.not_eq_true', Bool.not_eq_true, List.any_eq_false,
    decide_eq_true_eq] at h
  exact h p hp c.1 hmem rfl

theorem drawAll_nodup (w : Wallet) (hw : (mkeys w.confirmed_utxos).Nodup) :
    ∀ (needed actual : MMap Denom Nat), (mkeys needed).Nodup →
      ((drawAll w needed actual).1.map (·.1)).Nodup := by
  intro needed
  induction needed with
  | nil => intro actual _; simp [drawAll]
  | cons hd rest ih =>
    intro actual hnd
    obtain ⟨dn, nd⟩ := hd
    simp only [mkeys, List.map_cons, List.nodup_cons] at hnd
    simp only [drawAll, List.map_append]
    apply List.Nodup.append
    · exact keys_nodup_of_sublist (drawDenom_sublist nd _ _)
        (keys_nodup_of_sublist (List.filter_sublist _) (spendableUtxos_keys_nodup w hw))
    · exact ih _ hnd.2
    · intro k hk1 hk2
      obtain ⟨c, hc, hck⟩ := List.mem_map.mp hk1
      obtain ⟨c', hc', hck'⟩ := List.mem_map.mp hk2
      have hcf : c ∈ (spendableUtxos w).filter
          (fun p => decide (p.2.coin_data.denom = dn)) :=
        (drawDenom_sublist nd _ _).mem hc
      obtain ⟨dn', hdn', hcf'⟩ := drawAll_mem w _ _ c' hc'
      have hcs : c ∈ w.confirmed_utxos :=
        (spendableUtxos_sublist w).mem (List.mem_filter.mp hcf).1
      have hcs' : c' ∈ w.confirmed_utxos :=
        (spendableUtxos_sublist w).mem (List.mem_filter.mp hcf').1
      have hceq : c = c' :=
        nodup_keys_eq w.confirmed_utxos hw c hcs c' hcs' (by rw [hck, hck'])
      have hdn1 : c.2.coin_data.denom = dn := by
        simpa using (List.mem_filter.mp hcf).2
      have hdn2 : c'.2.coin_data.denom = dn' := by
        simpa using (List.mem_filter.mp hcf').2
      apply hnd.1
      have : dn = dn' := by rw [← hdn1, hceq, hdn2]
      rw [this]
      exact hdn'

/-! ## Lemmas about the signing fold and the ladder structure -/

theorem signFoldAux_inputs (sg : SignerM)
    (hsg : ∀ t i t', sg.sign t i = some t' → t'.inputs = t.inputs) :
    ∀ (l : List Nat) (t t' : Transaction),
      signFoldAux sg l t = some t' → t'.inputs = t.inputs := by
  intro l
  induction l with
  | nil =>
    intro t t' h
    simp only [signFoldAux, Option.some.injEq] at h
    rw [h]
  | cons i rest ih =>
    intro t t' h
    simp only [signFoldAux] at h
    cases hs : sg.sign t i with
    | none => rw [hs] at h; exact absurd h (by simp)
    | some t1 =>
      rw [hs] at h
      rw [ih t1 t' h, hsg t i t1 hs]

theorem signFold_inputs (sg : SignerM)
    (hsg : ∀ t i t', sg.sign t i = some t' → t'.inputs = t.inputs)
    (t t' : Transaction) (n : Nat) (h : signFold sg t n = some t') :
    t'.inputs = t.inputs :=
  signFoldAux_inputs sg hsg (List.range n) t t' h

theorem signFoldAux_spec (sg : SignerM) (n : Nat)
    (hsg : ∀ t i t', sg.sign t i = some t' →
      ∃ s, t' = { t with sigs := s } ∧ s.length ≤ max t.sigs.length (i + 1) ∧
        ∀ b ∈ s, b.length ≤ sg.sigSize ∨ b ∈ t.sigs) :
    ∀ (l : List Nat) (t t' : Transaction),
      (∀ i ∈ l, i < n) → t.sigs.length ≤ n →
      (∀ b ∈ t.sigs, b.length ≤ sg.sigSize) →
      signFoldAux sg l t = some t' →
      (t'.kind = t.kind ∧ t'.inputs = t.inputs ∧ t'.outputs = t.outputs ∧
        t'.fee = t.fee ∧ t'.covenants = t.covenants ∧ t'.data = t.data) ∧
      t'.sigs.length ≤ n ∧ (∀ b ∈ t'.sigs, b.length ≤ sg.sigSize) := by
  intro l
  induction l with
  | nil =>
    intro t t' _ hlen hall h
    simp only [signFoldAux, Option.some.injEq] at h
    subst h
    exact ⟨⟨rfl, rfl, rfl, rfl, rfl, rfl⟩, hlen, hall⟩
  | cons i rest ih =>
    intro t t' hidx hlen hall h
    simp only [signFoldAux] at h
    cases hs : sg.sign t i with
    | none => rw [hs] at h; exact absurd h (by simp)
    | some t1 =>
      rw [hs] at h
      obtain ⟨s, ht1, hslen, hsall⟩ := hsg t i t1 hs
      have hidx' : ∀ j ∈ rest, j < n := fun j hj => hidx j (List.mem_cons_of_mem i hj)
      have hi : i < n := hidx i (List.mem_cons_self i rest)
      have hlen1 : t1.sigs.length ≤ n := by
        rw [ht1]
        exact le_trans hslen (max_le hlen hi)
      have hall1 : ∀ b ∈ t1.sigs, b.length ≤ sg.sigSize := by
        rw [ht1]
        intro b hb
        rcases hsall b hb with hb' | hb'
        · exact hb'
        · exact hall b hb'
      obtain ⟨hfields, hlen', hall'⟩ := ih t1 t' hidx' hlen1 hall1 h
      rw [ht1] at hfields
      exact ⟨hfields, hlen', hall'⟩

theorem prepareTxAux_ok (w : Wallet) (args : PrepareTxArgs)
    (baseFee : Nat → Nat → Transaction → Nat) (sg : SignerM)
    (fm : Nat) (cb : Bool) :
    ∀ (fuel power : Nat) (tx : Transaction),
      prepareTxAux w args baseFee sg fm cb power fuel = .ok tx →
      ∃ p, prepareAttempt w args baseFee sg fm cb p = .ok (some tx) := by
  intro fuel
  induction fuel with
  | zero =>
    intro power tx h
    exact absurd h (by simp [prepareTxAux])
  | succ fuel ih =>
    intro power tx h
    simp only [prepareTxAux] at h
    cases ha : prepareAttempt w args baseFee sg fm cb power with
    | error e => rw [ha] at h; exact absurd h (by simp)
    | ok o =>
      rw [ha] at h
      cases o with
      | some tx' =>
        simp only [Except.ok.injEq] at h
        exact ⟨power, by rw [ha, h]⟩
      | none => exact ih (power + 1) tx h

theorem mkeys_minsert_nodup {α β : Type} [DecidableEq α] (l : MMap α β) (k : α) (v : β)
    (h : (mkeys l).Nodup) : (mkeys (minsert l k v)).Nodup := by
  induction l with
  | nil => simp [minsert, mkeys]
  | cons hd t ih =>
    obtain ⟨a, b⟩ := hd
    simp only [mkeys, List.map_cons, List.nodup_cons] at h
    by_cases hak : a = k
    · subst hak
      have hred : minsert ((a, b) :: t) a v = (a, v) :: t := by
        simp [minsert]
      rw [hred]
      simp only [mkeys, List.map_cons, List.nodup_cons]
      exact ⟨h.1, h.2⟩
    · simp only [minsert, if_neg hak, mkeys, List.map_cons, List.nodup_cons]
      refine ⟨?_, ih h.2⟩
      intro hmem
      rcases mem_mkeys_minsert t k a v hmem with h' | h'
      · exact hak h'
      · exact h.1 h'

theorem outputsFold_keys_nodup (outs : List CoinData) :
    ∀ (m : MMap Denom Nat), (mkeys m).Nodup →
      (mkeys (outs.foldl
        (fun m o => if o.denom = Denom.NewCustom then m else maddTo m o.denom o.value)
        m)).Nodup := by
  induction outs with
  | nil => intro m hm; simpa using hm
  | cons o rest ih =>
    intro m hm
    simp only [List.foldl_cons]
    by_cases ho : o.denom = Denom.NewCustom
    · rw [if_pos ho]
      exact ih m hm
    · rw [if_neg ho]
      exact ih _ (mkeys_minsert_nodup _ _ _ hm)

theorem neededMap_keys_nodup (args : PrepareTxArgs) (fee : Nat) :
    (mkeys (neededMap args fee)).Nodup :=
  mkeys_minsert_nodup _ _ _
    (outputsFold_keys_nodup args.outputs [] (by simp [mkeys]))

theorem prepareAttempt_ok_parts (w : Wallet) (args : PrepareTxArgs)
    (baseFee : Nat → Nat → Transaction → Nat) (sg : SignerM) (fm : Nat) (cb : Bool)
    (p : Nat) (tx : Transaction)
    (hok : prepareAttempt w args baseFee sg fm cb p = .ok (some tx)) :
    ∃ change,
      baseFee fm args.fee_ballast
        (assembleTx args
          (args.inputs ++
            (drawAll w (neededMap args (ladderFee p)) (actualMap args.inputs)).1)
          (args.outputs ++ change) (ladderFee p) sg) ≤ ladderFee p ∧
      signFold sg
        { assembleTx args
            (args.inputs ++
              (drawAll w (neededMap args (ladderFee p)) (actualMap args.inputs)).1)
            (args.outputs ++ change) (ladderFee p) sg with sigs := [] }
        (args.inputs.length +
          (drawAll w (neededMap args (ladderFee p)) (actualMap args.inputs)).2.2) =
        some tx := by
  simp only [prepareAttempt] at hok
  split at hok
  · exact absurd hok (by simp)
  · split at hok
    · exact absurd hok (by simp)
    · rename_i change heq
      split at hok
      · rename_i hbf
        split at hok
        · rename_i signed heqs
          simp only [Except.ok.injEq, Option.some.injEq] at hok
          subst hok
          exact ⟨change, hbf, heqs⟩
        · exact absurd hok (by simp)
      · exact absurd hok (by simp)

/-! ## C3 -/

/-- A signer that accepts every transaction unchanged (a conforming signer
for the purposes of input-identity: it populates nothing but also alters
nothing). -/
def okSigner : SignerM := ⟨[], 64, fun t _ => some t⟩

/-- An out-of-wallet coin id used by the C3 counterexample. -/
def cexX : CoinID := ⟨0, 0⟩

/-- An out-of-wallet zero-value Mel coin (covhash 7, not the wallet's). -/
def cexCdh : CoinDataHeight := ⟨⟨7, Denom.Mel, 0, []⟩, 1⟩

/-- A request whose explicit inputs list the same coin twice. -/
def cexArgs : PrepareTxArgs := ⟨0, [(cexX, cexCdh), (cexX, cexCdh)], [], [], [], 0⟩

/-- The transaction `prepare_tx` produces from `cexArgs` on the empty
wallet `w0`: its input list contains `cexX` twice. -/
def cexTx : Transaction := ⟨0, [cexX, cexX], [], 1, [[], []], [], []⟩

/-- C3 counterexample: `prepare_tx` can return a transaction that spends
the same `CoinID` twice.  On the empty wallet `w0`, with explicit inputs
listing the zero-value coin `cexX` twice (the automatic selector never
deduplicates against the caller's explicit inputs, src/lib.rs lines
135-156), with `check_balanced = false` and a base-fee function answering
1, the call succeeds and the returned transaction's inputs are
`[cexX, cexX]` — not pairwise distinct. -/
theorem c3_counterexample :
    prepareTx w0 cexArgs (fun _ _ _ => 1) okSigner 0 false 1 = .ok cexTx ∧
    ¬ cexTx.inputs.Nodup :=
  ⟨rfl, by decide⟩

/-- C3 amended: when the explicit inputs of the request are pairwise
distinct and none of them is a coin of the wallet's own confirmed UTXO map
(the normal use: explicit inputs are out-of-wallet coins, or there are
none), any transaction returned by `prepare_tx` has pairwise-distinct
inputs; moreover every returned input either is one of the explicit inputs
or was drawn by the automatic selector from `spendable_utxos`, and hence is
not an input of any pending outgoing transaction.  (The wallet's map has
unique keys, and the signer — per the §4.3 contract — does not alter the
input list.) -/
theorem c3_amended_distinct_inputs (w : Wallet) (args : PrepareTxArgs)
    (baseFee : Nat → Nat → Transaction → Nat) (sg : SignerM) (fm : Nat) (cb : Bool)
    (fuel : Nat) (tx : Transaction)
    (hw : (mkeys w.confirmed_utxos).Nodup)
    (ha : (args.inputs.map (·.1)).Nodup)
    (hdisj : ∀ cid ∈ args.inputs.map (·.1), cid ∉ mkeys w.confirmed_utxos)
    (hsg : ∀ t i t', sg.sign t i = some t' → t'.inputs = t.inputs)
    (hok : prepareTx w args baseFee sg fm cb fuel = .ok tx) :
    tx.inputs.Nodup ∧
    ∀ cid ∈ tx.inputs, cid ∈ args.inputs.map (·.1) ∨
      (cid ∈ (spendableUtxos w).map (·.1) ∧
        ∀ p ∈ w.pending_outgoing, cid ∉ p.2.inputs) := by
  obtain ⟨p, hatt⟩ := prepareTxAux_ok w args baseFee sg fm cb fuel 0 tx hok
  obtain ⟨change, -, hsf⟩ :=
    prepareAttempt_ok_parts w args baseFee sg fm cb p tx hatt
  have hinp : tx.inputs =
      (args.inputs ++
        (drawAll w (neededMap args (ladderFee p)) (actualMap args.inputs)).1).map (·.1) :=
    signFold_inputs sg hsg _ tx _ hsf
  constructor
  · rw [hinp, List.map_append]
    refine List.Nodup.append ha
      (drawAll_nodup w hw _ _ (neededMap_keys_nodup args _)) ?_
    intro k hk1 hk2
    obtain ⟨c, hc, hck⟩ := List.mem_map.mp hk2
    obtain ⟨dn, _, hcf⟩ := drawAll_mem w _ _ c hc
    have hcs : c ∈ w.confirmed_utxos :=
      (spendableUtxos_sublist w).mem (List.mem_filter.mp hcf).1
    exact hdisj k hk1 (by
      simp only [mkeys, List.mem_map]
      exact ⟨c, hcs, hck⟩)
  · intro cid hcid
    rw [hinp, List.map_append, List.mem_append] at hcid
    rcases hcid with h | h
    · exact Or.inl h
    · right
      obtain ⟨c, hc, hck⟩ := List.mem_map.mp h
      obtain ⟨dn, -, hcf⟩ := drawAll_mem w _ _ c hc
      have hcs : c ∈ spendableUtxos w := (List.mem_filter.mp hcf).1
      refine ⟨List.mem_map.mpr ⟨c, hcs, hck⟩, ?_⟩
      intro q hq
      rw [← hck]
      exact spendableUtxos_not_pending w c hcs q hq

/-- A wallet holding one zero-value Mel coin, used to exercise the
automatic selector in the C3 witness. -/
def w4 : Wallet := ⟨0, 1, 5, [(⟨6, 0⟩, ⟨⟨1, Denom.Mel, 0, []⟩, 2⟩)], []⟩

/-- The empty request (no explicit inputs, no outputs). -/
def args0 : PrepareTxArgs := ⟨0, [], [], [], [], 0⟩

/-- The transaction `prepare_tx` produces from `args0` on `w4`: one
automatically drawn input. -/
def tx4 : Transaction := ⟨0, [⟨6, 0⟩], [], 1, [[]], [], []⟩

/-- Witness for C3's amended theorem, discharging every hypothesis at a
concrete input: on wallet `w4` with the empty request `args0` the preparer
draws the single spendable coin, and the returned `tx4` has distinct inputs
all drawn from `spendable_utxos`. -/
theorem c3_amended_distinct_inputs_witness :
    tx4.inputs.Nodup ∧
    ∀ cid ∈ tx4.inputs, cid ∈ args0.inputs.map (·.1) ∨
      (cid ∈ (spendableUtxos w4).map (·.1) ∧
        ∀ p ∈ w4.pending_outgoing, cid ∉ p.2.inputs) :=
  c3_amended_distinct_inputs w4 args0 (fun _ _ _ => 1) okSigner 0 false 1 tx4
    (by decide) (by decide) (by simp [args0])
    (fun t i t' h => by injection h with h'; rw [← h']) rfl

/-! ## C4 -/

/-- C4: a transaction returned by `prepare_tx` pays at least its actual
required fee: the external base-fee function applied (with the given fee
multiplier and fee ballast) to the returned transaction does not exceed
the transaction's declared `fee` field.  The two hypotheses are the
external contracts the crate relies on: `hmono` says the base-fee/weight
function does not grow when the signature vector is replaced by one with
no more slots, each no longer than the signer's conservative `sig_size`
estimate (the placeholder signatures exist precisely so the acceptance
test sees a realistic upper bound, src/lib.rs lines 192-194); `hsg` is the
§4.3 signer contract: `sign(t, i)` only populates signature slots — every
field but `sigs` is preserved, the signature vector grows at most to slot
`i`, and every new entry respects `sig_size`. -/
theorem c4_fee_bound (w : Wallet) (args : PrepareTxArgs)
    (baseFee : Nat → Nat → Transaction → Nat) (sg : SignerM) (fm : Nat) (cb : Bool)
    (fuel : Nat) (tx : Transaction)
    (hmono : ∀ (k : TxKind) (ins : List CoinID) (outs : List CoinData) (fe : Nat)
      (cov : List Bytes) (dt : Bytes) (n : Nat) (s : List Bytes),
      s.length ≤ n → (∀ b ∈ s, b.length ≤ sg.sigSize) →
      baseFee fm args.fee_ballast (Transaction.mk k ins outs fe cov dt s) ≤
        baseFee fm args.fee_ballast (Transaction.mk k ins outs fe cov dt
          (List.replicate n (List.replicate sg.sigSize 0))))
    (hsg : ∀ t i t', sg.sign t i = some t' →
      ∃ s, t' = { t with sigs := s } ∧ s.length ≤ max t.sigs.length (i + 1) ∧
        ∀ b ∈ s, b.length ≤ sg.sigSize ∨ b ∈ t.sigs)
    (hok : prepareTx w args baseFee sg fm cb fuel = .ok tx) :
    baseFee fm args.fee_ballast tx ≤ tx.fee := by
  obtain ⟨p, hatt⟩ := prepareTxAux_ok w args baseFee sg fm cb fuel 0 tx hok
  obtain ⟨change, hbf, hsf⟩ :=
    prepareAttempt_ok_parts w args baseFee sg fm cb p tx hatt
  have hnlen : args.inputs.length +
      (drawAll w (neededMap args (ladderFee p)) (actualMap args.inputs)).2.2 =
      (args.inputs ++
        (drawAll w (neededMap args (ladderFee p)) (actualMap args.inputs)).1).length := by
    rw [List.length_append, drawAll_touched]
  obtain ⟨⟨hk, hi, ho, hf, hc, hd⟩, hlen, hall⟩ :=
    signFoldAux_spec sg
      (args.inputs.length +
        (drawAll w (neededMap args (ladderFee p)) (actualMap args.inputs)).2.2)
      hsg (List.range _) _ tx (fun i hi => List.mem_range.mp hi)
      (by simp [assembleTx]) (by simp [assembleTx]) hsf
  obtain ⟨k0, i0, o0, f0, c0, d0, s0⟩ := tx
  simp only [assembleTx] at hk hi ho hf hc hd hlen hall
  subst hk hi ho hf hc hd
  refine le_trans (hmono _ _ _ _ _ _
    (args.inputs ++
      (drawAll w (neededMap args (ladderFee p)) (actualMap args.inputs)).1).length
    s0 (hnlen ▸ hlen) hall) ?_
  exact hbf

/-- The transaction `prepare_tx` produces from the empty request on the
empty wallet with a base-fee function answering 0. -/
def tx5 : Transaction := ⟨0, [], [], 1, [], [], []⟩

/-- Witness for C4 at a concrete input: on the empty wallet `w0` with the
empty request `args0`, the constant-zero base-fee function (which
satisfies the monotonicity contract) and the identity signer (which
satisfies the signer contract), `prepare_tx` returns `tx5` and the fee
bound `0 ≤ tx5.fee` follows from the theorem. -/
theorem c4_fee_bound_witness : (0 : Nat) ≤ tx5.fee :=
  c4_fee_bound w0 args0 (fun _ _ _ => 0) okSigner 0 false 1 tx5
    (fun _ _ _ _ _ _ _ _ _ _ => Nat.le_refl 0)
    (fun t i t' h =>
      ⟨t.sigs, by injection h with h'; rw [← h'], Nat.le_max_left _ _,
        fun b hb => Or.inr hb⟩)
    rfl
